import Mathlib

/-!
Verification of the `wes` disk-usage reporter (`src/main.rs`).

Shallow embedding conventions:
* `OsString` path segments are modelled as `String`; a filesystem path relative
  to the scan root is its list of segments (`Path::iter`), a `List String`.
* `AHashMap` children maps are modelled as association lists whose update
  operation (`entry(..).or_insert_with(..)`) replaces in place or appends;
  all claims proved here are insertion-order independent.
* Rust's stable `sort_by_key` is modelled by Mathlib's stable
  `List.insertionSort` (a stable sort's output is uniquely determined by the
  input order and the key comparison, so the choice of stable algorithm is
  irrelevant).
* `u64` sizes are modelled as `Nat`; the program only ever adds sizes, and
  total disk usage stays far below 2^64, so wrap-around is not modelled.
-/

/-- The `DirTree` struct from `main.rs`: a node name, a cumulative size and a
children map keyed by path segment (association list model of the hash map). -/
inductive DirTree where
  | mk : String → Nat → List (String × DirTree) → DirTree

def DirTree.name : DirTree → String
  | .mk n _ _ => n

def DirTree.size : DirTree → Nat
  | .mk _ s _ => s

def DirTree.children : DirTree → List (String × DirTree)
  | .mk _ _ cs => cs

/-- `DirTree::new`: a single node with the given name, size 0, no children. -/
def DirTree.new (root : String) : DirTree :=
  .mk root 0 []

/-- `children.entry(d).or_insert_with(..)` followed by writing the updated
child back: replace the entry for key `d` in place, or append it. -/
def insertChild : List (String × DirTree) → String → DirTree → List (String × DirTree)
  | [], d, c => [(d, c)]
  | (k, v) :: rest, d, c =>
      if k = d then (d, c) :: rest else (k, v) :: insertChild rest d c

/-- The loop body of `DirTree::add_dir`, acting on a children map: for each
path segment, fetch or create the child and recurse into it.  Sizes are never
touched. -/
def addDirChildren : List (String × DirTree) → List String → List (String × DirTree)
  | cs, [] => cs
  | cs, d :: rest =>
      let c0 := (cs.lookup d).getD (DirTree.new d)
      insertChild cs d (DirTree.mk c0.name c0.size (addDirChildren c0.children rest))

/-- `DirTree::add_dir`. -/
def DirTree.add_dir : DirTree → List String → DirTree
  | .mk n s cs, p => .mk n s (addDirChildren cs p)

/-- The loop body of `DirTree::add_file`, acting on a children map: every path
segment except the last one (the file's own name) gets its node fetched or
created and its size bumped by `sz`. -/
def addFileChildren : List (String × DirTree) → List String → Nat → List (String × DirTree)
  | cs, [], _ => cs
  | cs, [_], _ => cs
  | cs, d :: e :: rest, sz =>
      let c0 := (cs.lookup d).getD (DirTree.new d)
      insertChild cs d (DirTree.mk c0.name (c0.size + sz) (addFileChildren c0.children (e :: rest) sz))

/-- `DirTree::add_file`: `self.size += size`, then walk all non-final path
segments bumping (and lazily creating) each node. -/
def DirTree.add_file : DirTree → List String → Nat → DirTree
  | .mk n s cs, p, sz => .mk n (s + sz) (addFileChildren cs p sz)

/-- Locate the node at a (root-relative) address in the tree. -/
def DirTree.find? : DirTree → List String → Option DirTree
  | t, [] => some t
  | .mk _ _ cs, e :: q =>
      match cs.lookup e with
      | some c => c.find? q
      | none => none

/-- The size stored at an address, if a node exists there. -/
def sizeAt (t : DirTree) (q : List String) : Option Nat :=
  (t.find? q).map DirTree.size

/-- `strictlyBelow q p` holds when address `q` is a proper prefix of path `p`,
i.e. a file at path `p` lies strictly inside the directory at address `q`. -/
def strictlyBelow : List String → List String → Bool
  | [], [] => false
  | [], _ :: _ => true
  | _ :: _, [] => false
  | a :: as, b :: bs => a == b && strictlyBelow as bs

-- Basic lemmas about the association-list operations.

theorem lookup_insertChild_self (cs : List (String × DirTree)) (d : String) (c : DirTree) :
    (insertChild cs d c).lookup d = some c := by
  induction cs with
  | nil => simp [insertChild, List.lookup]
  | cons kv rest ih =>
    obtain ⟨k, v⟩ := kv
    by_cases h : k = d
    · subst h
      simp [insertChild, List.lookup]
    · have hb : (d == k) = false := by
        simp [beq_iff_eq]
        exact fun hh => h hh.symm
      simp [insertChild, h, List.lookup, hb, ih]

theorem lookup_insertChild_ne (cs : List (String × DirTree)) (d e : String) (c : DirTree)
    (h : e ≠ d) : (insertChild cs d c).lookup e = cs.lookup e := by
  have hb : (e == d) = false := by simp [beq_iff_eq, h]
  induction cs with
  | nil => simp [insertChild, List.lookup, hb]
  | cons kv rest ih =>
    obtain ⟨k, v⟩ := kv
    by_cases hk : k = d
    · subst hk
      simp [insertChild, List.lookup, hb]
    · simp [insertChild, hk, List.lookup, ih]

@[simp] theorem add_dir_mk (n : String) (s : Nat) (cs : List (String × DirTree))
    (p : List String) :
    (DirTree.mk n s cs).add_dir p = DirTree.mk n s (addDirChildren cs p) := rfl

@[simp] theorem add_file_mk (n : String) (s : Nat) (cs : List (String × DirTree))
    (p : List String) (sz : Nat) :
    (DirTree.mk n s cs).add_file p sz = DirTree.mk n (s + sz) (addFileChildren cs p sz) := rfl

@[simp] theorem sizeAt_nil (n : String) (s : Nat) (cs : List (String × DirTree)) :
    sizeAt (DirTree.mk n s cs) [] = some s := rfl

theorem sizeAt_cons_some {cs : List (String × DirTree)} {e : String} {c : DirTree}
    (n : String) (s : Nat) (q : List String) (hl : cs.lookup e = some c) :
    sizeAt (DirTree.mk n s cs) (e :: q) = sizeAt c q := by
  simp [sizeAt, DirTree.find?, hl]

theorem sizeAt_cons_none {cs : List (String × DirTree)} {e : String}
    (n : String) (s : Nat) (q : List String) (hl : cs.lookup e = none) :
    sizeAt (DirTree.mk n s cs) (e :: q) = none := by
  simp [sizeAt, DirTree.find?, hl]

theorem sizeAt_leaf_cons (n : String) (s : Nat) (a : String) (q : List String) :
    sizeAt (DirTree.mk n s []) (a :: q) = none := rfl

@[simp] theorem strictlyBelow_nil_nil : strictlyBelow [] [] = false := rfl

@[simp] theorem strictlyBelow_nil_cons (b : String) (bs : List String) :
    strictlyBelow [] (b :: bs) = true := rfl

@[simp] theorem strictlyBelow_cons_nil (a : String) (as : List String) :
    strictlyBelow (a :: as) [] = false := rfl

@[simp] theorem strictlyBelow_cons_cons (a b : String) (as bs : List String) :
    strictlyBelow (a :: as) (b :: bs) = (a == b && strictlyBelow as bs) := rfl

theorem addDirChildren_lookup_some {cs : List (String × DirTree)} {d : String}
    {cn : String} {csz : Nat} {ccs : List (String × DirTree)} (rest : List String)
    (hl : cs.lookup d = some (DirTree.mk cn csz ccs)) :
    (addDirChildren cs (d :: rest)).lookup d
      = some (DirTree.mk cn csz (addDirChildren ccs rest)) := by
  simp only [addDirChildren, hl, Option.getD_some, DirTree.name, DirTree.size,
    DirTree.children, lookup_insertChild_self]

theorem addDirChildren_lookup_none {cs : List (String × DirTree)} {d : String}
    (rest : List String) (hl : cs.lookup d = none) :
    (addDirChildren cs (d :: rest)).lookup d
      = some (DirTree.mk d 0 (addDirChildren [] rest)) := by
  simp only [addDirChildren, hl, Option.getD_none, DirTree.new, DirTree.name, DirTree.size,
    DirTree.children, lookup_insertChild_self]

theorem addDirChildren_lookup_ne (cs : List (String × DirTree)) (d : String)
    (rest : List String) (e : String) (h : e ≠ d) :
    (addDirChildren cs (d :: rest)).lookup e = cs.lookup e := by
  simp only [addDirChildren]
  exact lookup_insertChild_ne _ _ _ _ h

theorem addFileChildren_lookup_some {cs : List (String × DirTree)} {d : String}
    {cn : String} {csz : Nat} {ccs : List (String × DirTree)} (e : String)
    (rest : List String) (sz : Nat) (hl : cs.lookup d = some (DirTree.mk cn csz ccs)) :
    (addFileChildren cs (d :: e :: rest) sz).lookup d
      = some (DirTree.mk cn (csz + sz) (addFileChildren ccs (e :: rest) sz)) := by
  simp only [addFileChildren, hl, Option.getD_some, DirTree.name, DirTree.size,
    DirTree.children, lookup_insertChild_self]

theorem addFileChildren_lookup_none {cs : List (String × DirTree)} {d : String}
    (e : String) (rest : List String) (sz : Nat) (hl : cs.lookup d = none) :
    (addFileChildren cs (d :: e :: rest) sz).lookup d
      = some (DirTree.mk d (0 + sz) (addFileChildren [] (e :: rest) sz)) := by
  simp only [addFileChildren, hl, Option.getD_none, DirTree.new, DirTree.name, DirTree.size,
    DirTree.children, lookup_insertChild_self]

theorem addFileChildren_lookup_ne (cs : List (String × DirTree)) (d e : String)
    (rest : List String) (sz : Nat) (g : String) (h : g ≠ d) :
    (addFileChildren cs (d :: e :: rest) sz).lookup g = cs.lookup g := by
  simp only [addFileChildren]
  exact lookup_insertChild_ne _ _ _ _ h

theorem below_cond_cons_self (e : String) (q' rest : List String) :
    (e :: q' = e :: rest ∨ strictlyBelow (e :: q') (e :: rest) = true)
      ↔ (q' = rest ∨ strictlyBelow q' rest = true) := by
  simp

/-- Effect of `add_dir p` on the size stored at any address `q`: every address
on the path `p` (the path itself and all its prefixes) now exists, keeping its
old size or getting size 0 if freshly created; every other address is
untouched. -/
theorem sizeAt_add_dir (p : List String) : ∀ (t : DirTree) (q : List String),
    sizeAt (t.add_dir p) q =
      if q = p ∨ strictlyBelow q p then some ((sizeAt t q).getD 0) else sizeAt t q := by
  induction p with
  | nil =>
    intro t q
    cases t with
    | mk n s cs =>
      cases q with
      | nil => simp [addDirChildren]
      | cons e q' => simp [addDirChildren]
  | cons d rest ih =>
    intro t q
    cases t with
    | mk n s cs =>
      cases q with
      | nil => simp
      | cons e q' =>
        by_cases he : e = d
        · subst he
          simp only [add_dir_mk, below_cond_cons_self]
          cases hl : cs.lookup e with
          | some c0 =>
            cases c0 with
            | mk cn csz ccs =>
              rw [sizeAt_cons_some n s q' (addDirChildren_lookup_some rest hl)]
              rw [sizeAt_cons_some n s q' hl]
              have := ih (DirTree.mk cn csz ccs) q'
              rw [add_dir_mk] at this
              exact this
          | none =>
            rw [sizeAt_cons_some n s q' (addDirChildren_lookup_none rest hl)]
            rw [sizeAt_cons_none n s q' hl]
            have := ih (DirTree.mk e 0 []) q'
            rw [add_dir_mk] at this
            rw [this]
            by_cases hc : q' = rest ∨ strictlyBelow q' rest = true
            · rw [if_pos hc, if_pos hc]
              cases q' with
              | nil => simp
              | cons a q'' => rw [sizeAt_leaf_cons]
            · rw [if_neg hc, if_neg hc]
              cases q' with
              | nil =>
                exfalso
                apply hc
                cases rest with
                | nil => exact Or.inl rfl
                | cons b bs => exact Or.inr (by simp)
              | cons a q'' => exact sizeAt_leaf_cons e 0 a q''
        · simp only [add_dir_mk]
          have hb : (e == d) = false := by simp [beq_iff_eq, he]
          have hcond : ¬(e :: q' = d :: rest ∨ strictlyBelow (e :: q') (d :: rest) = true) := by
            rintro (hh | hh)
            · exact he (by injection hh)
            · rw [strictlyBelow_cons_cons, hb] at hh
              simp at hh
          rw [if_neg hcond]
          cases hl : cs.lookup e with
          | some c =>
            rw [sizeAt_cons_some n s q' (by
              rw [addDirChildren_lookup_ne _ _ _ _ he]
              exact hl)]
            rw [sizeAt_cons_some n s q' hl]
          | none =>
            rw [sizeAt_cons_none n s q' (by
              rw [addDirChildren_lookup_ne _ _ _ _ he]
              exact hl)]
            rw [sizeAt_cons_none n s q' hl]

theorem nil_or_below_cons (q : List String) (e : String) (rest : List String) :
    (q = [] ∨ strictlyBelow q (e :: rest) = true) ↔ strictlyBelow q (e :: rest) = true := by
  constructor
  · rintro (hh | hh)
    · subst hh
      simp
    · exact hh
  · exact Or.inr

/-- Effect of `add_file p sz` on the size stored at any address `q`: the root
and every proper prefix of `p` (the non-final segments, created if missing)
gain `sz`; every other address — including `p` itself, the file's own name —
is untouched. -/
theorem sizeAt_add_file (p : List String) : ∀ (t : DirTree) (q : List String) (sz : Nat),
    sizeAt (t.add_file p sz) q =
      if q = [] ∨ strictlyBelow q p then some ((sizeAt t q).getD 0 + sz) else sizeAt t q := by
  induction p with
  | nil =>
    intro t q sz
    cases t with
    | mk n s cs =>
      cases q with
      | nil => simp [addFileChildren]
      | cons e q' =>
        simp only [add_file_mk, addFileChildren, strictlyBelow_cons_nil,
          List.cons_ne_nil, or_self, if_neg, Bool.false_eq_true, or_false]
        rw [if_neg (by simp)]
        cases hl : cs.lookup e with
        | some c =>
          rw [sizeAt_cons_some n (s + sz) q' hl, sizeAt_cons_some n s q' hl]
        | none =>
          rw [sizeAt_cons_none n (s + sz) q' hl, sizeAt_cons_none n s q' hl]
  | cons d rest ih =>
    intro t q sz
    cases t with
    | mk n s cs =>
      cases rest with
      | nil =>
        cases q with
        | nil => simp [addFileChildren]
        | cons e q' =>
          simp only [add_file_mk, addFileChildren]
          rw [if_neg (by
            rintro (hh | hh)
            · exact List.cons_ne_nil e q' hh
            · rw [strictlyBelow_cons_cons] at hh
              cases q' with
              | nil => simp at hh
              | cons a q'' => simp at hh)]
          cases hl : cs.lookup e with
          | some c =>
            rw [sizeAt_cons_some n (s + sz) q' hl, sizeAt_cons_some n s q' hl]
          | none =>
            rw [sizeAt_cons_none n (s + sz) q' hl, sizeAt_cons_none n s q' hl]
      | cons e rest' =>
        cases q with
        | nil => simp
        | cons g q' =>
          by_cases hg : g = d
          · subst hg
            simp only [add_file_mk]
            rw [if_congr (show (g :: q' = [] ∨ strictlyBelow (g :: q') (g :: e :: rest') = true)
                  ↔ (strictlyBelow q' (e :: rest') = true) from by simp) rfl rfl]
            cases hl : cs.lookup g with
            | some c0 =>
              cases c0 with
              | mk cn csz ccs =>
                rw [sizeAt_cons_some n (s + sz) q' (addFileChildren_lookup_some e rest' sz hl)]
                rw [sizeAt_cons_some n s q' hl]
                have := ih (DirTree.mk cn csz ccs) q' sz
                rw [add_file_mk] at this
                rw [this]
                rw [if_congr (nil_or_below_cons q' e rest') rfl rfl]
            | none =>
              rw [sizeAt_cons_some n (s + sz) q' (addFileChildren_lookup_none e rest' sz hl)]
              rw [sizeAt_cons_none n s q' hl]
              have := ih (DirTree.mk g 0 []) q' sz
              rw [add_file_mk] at this
              rw [this]
              rw [if_congr (nil_or_below_cons q' e rest') rfl rfl]
              by_cases hc : strictlyBelow q' (e :: rest') = true
              · rw [if_pos hc, if_pos hc]
                cases q' with
                | nil => simp
                | cons a q'' => rw [sizeAt_leaf_cons]
              · rw [if_neg hc, if_neg hc]
                cases q' with
                | nil =>
                  exfalso
                  exact hc (by simp)
                | cons a q'' => exact sizeAt_leaf_cons g 0 a q''
          · simp only [add_file_mk]
            have hb : (g == d) = false := by simp [beq_iff_eq, hg]
            rw [if_neg (by
              rintro (hh | hh)
              · exact List.cons_ne_nil g q' hh
              · rw [strictlyBelow_cons_cons, hb] at hh
                simp at hh)]
            cases hl : cs.lookup g with
            | some c =>
              rw [sizeAt_cons_some n (s + sz) q' (by
                rw [addFileChildren_lookup_ne _ _ _ _ _ _ hg]
                exact hl)]
              rw [sizeAt_cons_some n s q' hl]
            | none =>
              rw [sizeAt_cons_none n (s + sz) q' (by
                rw [addFileChildren_lookup_ne _ _ _ _ _ _ hg]
                exact hl)]
              rw [sizeAt_cons_none n s q' hl]

/-- C7: a file added at a single-segment relative path (a file directly under
the scan root) only adds its size to the root's total; the children map is
untouched, so no child node is created. -/
theorem add_file_single_segment (t : DirTree) (f : String) (sz : Nat) :
    t.add_file [f] sz = DirTree.mk t.name (t.size + sz) t.children := by
  cases t with
  | mk n s cs =>
    simp [DirTree.add_file, addFileChildren, DirTree.name, DirTree.size, DirTree.children]

/-- C9: both tree operations are total on the empty relative path (the scan
root itself): `add_dir` leaves the tree unchanged, and `add_file` adds the
size to the root's total only, creating no node. -/
theorem add_ops_empty_path (t : DirTree) (sz : Nat) :
    t.add_dir [] = t ∧
    t.add_file [] sz = DirTree.mk t.name (t.size + sz) t.children := by
  cases t with
  | mk n s cs =>
    refine ⟨?_, ?_⟩
    · simp [DirTree.add_dir, addDirChildren]
    · simp [DirTree.add_file, addFileChildren, DirTree.name, DirTree.size, DirTree.children]

/-- One update performed by the walk loop on the tree: a directory entry or a
file entry, carrying its root-relative path (and size, for files). -/
inductive Op where
  | dir (p : List String)
  | file (p : List String) (sz : Nat)

def applyOp (t : DirTree) : Op → DirTree
  | .dir p => t.add_dir p
  | .file p sz => t.add_file p sz

def applyOps : DirTree → List Op → DirTree
  | t, [] => t
  | t, op :: ops => applyOps (applyOp t op) ops

/-- Bytes an operation adds at a file path strictly below address `q`. -/
def Op.addedBelow (q : List String) : Op → Nat
  | .dir _ => 0
  | .file p sz => if strictlyBelow q p then sz else 0

/-- Total size of files added at paths strictly below address `q`. -/
def sumBelow (q : List String) (ops : List Op) : Nat :=
  (ops.map (Op.addedBelow q)).sum

/-- Total size of all files added. -/
def totalFileBytes (ops : List Op) : Nat :=
  (ops.map fun op => match op with
    | .dir _ => 0
    | .file _ sz => sz).sum

/-- Every file operation carries a nonempty relative path (a real file has a
final path segment, its base name). -/
def filePathsNonempty (ops : List Op) : Bool :=
  ops.all fun op => match op with
    | .dir _ => true
    | .file p _ => !p.isEmpty

theorem size_applyOps (ops : List Op) : ∀ (t : DirTree) (q : List String),
    filePathsNonempty ops = true →
    ∀ n, (applyOps t ops).find? q = some n →
      n.size = (sizeAt t q).getD 0 + sumBelow q ops := by
  induction ops with
  | nil =>
    intro t q _ n hf
    simp only [applyOps] at hf
    simp only [sumBelow, List.map_nil, List.sum_nil, Nat.add_zero]
    simp [sizeAt, hf]
  | cons op ops ih =>
    intro t q hne n hf
    simp only [filePathsNonempty, List.all_cons, Bool.and_eq_true] at hne
    have hne2 : filePathsNonempty ops = true := hne.2
    simp only [applyOps] at hf
    have hmain := ih (applyOp t op) q hne2 n hf
    rw [hmain]
    have hsucc : sumBelow q (op :: ops) = Op.addedBelow q op + sumBelow q ops := by
      simp [sumBelow]
    rw [hsucc]
    have hstep : (sizeAt (applyOp t op) q).getD 0 = (sizeAt t q).getD 0 + Op.addedBelow q op := by
      cases op with
      | dir p =>
        simp only [applyOp, Op.addedBelow, Nat.add_zero]
        rw [sizeAt_add_dir]
        by_cases hc : q = p ∨ strictlyBelow q p = true
        · rw [if_pos hc]
          simp
        · rw [if_neg hc]
      | file p sz =>
        have hp : p ≠ [] := by
          cases p with
          | nil => simp at hne
          | cons a as => exact List.cons_ne_nil a as
        simp only [applyOp, Op.addedBelow]
        rw [sizeAt_add_file]
        by_cases hq : q = []
        · subst hq
          rw [if_pos (Or.inl rfl)]
          have hb : strictlyBelow [] p = true := by
            cases p with
            | nil => exact absurd rfl hp
            | cons a as => simp
          rw [if_pos hb]
          simp
        · by_cases hc : strictlyBelow q p = true
          · rw [if_pos (Or.inr hc), if_pos hc]
            simp
          · rw [if_neg (by
                rintro (hh | hh)
                · exact hq hh
                · exact hc hh)]
            rw [if_neg hc]
            simp
    rw [hstep]
    omega

theorem find?_nil (t : DirTree) : t.find? [] = some t := by
  cases t with
  | mk n s cs => rfl

theorem sumBelow_nil_total (ops : List Op) (hne : filePathsNonempty ops = true) :
    sumBelow [] ops = totalFileBytes ops := by
  induction ops with
  | nil => rfl
  | cons op ops ih =>
    simp only [filePathsNonempty, List.all_cons, Bool.and_eq_true] at hne
    have hrest : sumBelow [] ops = totalFileBytes ops := ih hne.2
    cases op with
    | dir p =>
      simp only [sumBelow, totalFileBytes, Op.addedBelow, List.map_cons, List.sum_cons] at hrest ⊢
      omega
    | file p sz =>
      have hb : strictlyBelow [] p = true := by
        cases p with
        | nil => simp at hne
        | cons a as => simp
      simp only [sumBelow, totalFileBytes, Op.addedBelow, List.map_cons, List.sum_cons,
        hb, if_pos] at hrest ⊢
      omega

/-- C3: running any sequence of directory/file additions (each file carrying a
nonempty relative path) on a fresh tree, every node that exists in the result
has size equal to the total size of the files added strictly below it; in
particular the root's size is the sum of all added file sizes. -/
theorem node_sizes_match_files_below (r : String) (ops : List Op) (q : List String)
    (n : DirTree) (hne : filePathsNonempty ops = true)
    (hfind : (applyOps (DirTree.new r) ops).find? q = some n) :
    n.size = sumBelow q ops ∧ (applyOps (DirTree.new r) ops).size = totalFileBytes ops := by
  have hzero : ∀ (q' : List String), (sizeAt (DirTree.new r) q').getD 0 = 0 := by
    intro q'
    cases q' with
    | nil => simp [DirTree.new]
    | cons a q'' => simp [DirTree.new, sizeAt_leaf_cons]
  constructor
  · have := size_applyOps ops (DirTree.new r) q hne n hfind
    rw [this, hzero]
    omega
  · have := size_applyOps ops (DirTree.new r) [] hne _ (find?_nil _)
    rw [this, hzero, sumBelow_nil_total ops hne]
    omega

theorem insertChild_insertChild (cs : List (String × DirTree)) (d : String) (c c' : DirTree) :
    insertChild (insertChild cs d c) d c' = insertChild cs d c' := by
  induction cs with
  | nil => simp [insertChild]
  | cons kv rest ih =>
    obtain ⟨k, v⟩ := kv
    by_cases h : k = d
    · subst h
      simp [insertChild]
    · simp [insertChild, h, ih]

theorem addDirChildren_idem (p : List String) : ∀ (cs : List (String × DirTree)),
    addDirChildren (addDirChildren cs p) p = addDirChildren cs p := by
  induction p with
  | nil => intro cs; rfl
  | cons d rest ih =>
    intro cs
    cases hl : cs.lookup d with
    | some c0 =>
      cases c0 with
      | mk cn csz ccs =>
        have h1 : addDirChildren cs (d :: rest)
            = insertChild cs d (DirTree.mk cn csz (addDirChildren ccs rest)) := by
          simp only [addDirChildren, hl, Option.getD_some, DirTree.name, DirTree.size,
            DirTree.children]
        rw [h1]
        have h2 : (insertChild cs d (DirTree.mk cn csz (addDirChildren ccs rest))).lookup d
            = some (DirTree.mk cn csz (addDirChildren ccs rest)) :=
          lookup_insertChild_self _ _ _
        simp only [addDirChildren, h2, Option.getD_some, DirTree.name, DirTree.size,
          DirTree.children, ih, insertChild_insertChild]
    | none =>
      have h1 : addDirChildren cs (d :: rest)
          = insertChild cs d (DirTree.mk d 0 (addDirChildren [] rest)) := by
        simp only [addDirChildren, hl, Option.getD_none, DirTree.new, DirTree.name,
          DirTree.size, DirTree.children]
      rw [h1]
      have h2 : (insertChild cs d (DirTree.mk d 0 (addDirChildren [] rest))).lookup d
          = some (DirTree.mk d 0 (addDirChildren [] rest)) :=
        lookup_insertChild_self _ _ _
      simp only [addDirChildren, h2, Option.getD_some, DirTree.name, DirTree.size,
        DirTree.children, ih, insertChild_insertChild]

theorem add_dir_add_dir (t : DirTree) (p : List String) :
    (t.add_dir p).add_dir p = t.add_dir p := by
  cases t with
  | mk n s cs => simp [addDirChildren_idem]

/-- C4: `add_dir` is idempotent — iterating it `N ≥ 1` times equals calling it
once — and it never changes any stored size: addresses on the added path keep
their old size (or appear with size 0 when freshly created) and all other
addresses are untouched. -/
theorem add_dir_idempotent_and_size_free (t : DirTree) (p q : List String) (N : Nat)
    (hN : 1 ≤ N) :
    (fun u => u.add_dir p)^[N] t = t.add_dir p ∧
    sizeAt (t.add_dir p) q =
      (if q = p ∨ strictlyBelow q p then some ((sizeAt t q).getD 0) else sizeAt t q) := by
  constructor
  · have aux : ∀ k, (fun u => DirTree.add_dir u p)^[k] (t.add_dir p) = t.add_dir p := by
      intro k
      induction k with
      | zero => rfl
      | succ m ihm =>
        rw [Function.iterate_succ_apply, add_dir_add_dir]
        exact ihm
    obtain ⟨m, rfl⟩ : ∃ m, N = m + 1 := ⟨N - 1, by omega⟩
    rw [Function.iterate_succ_apply]
    exact aux m
  · exact sizeAt_add_dir p t q

theorem node_sizes_match_files_below_witness :
    filePathsNonempty [Op.file ["a", "x"] 100, Op.file ["a", "y"] 50, Op.dir ["b"]] = true ∧
    (applyOps (DirTree.new "root") [Op.file ["a", "x"] 100, Op.file ["a", "y"] 50,
        Op.dir ["b"]]).find? []
      = some (applyOps (DirTree.new "root") [Op.file ["a", "x"] 100, Op.file ["a", "y"] 50,
        Op.dir ["b"]]) ∧
    ((applyOps (DirTree.new "root") [Op.file ["a", "x"] 100, Op.file ["a", "y"] 50,
        Op.dir ["b"]]).size
        = sumBelow [] [Op.file ["a", "x"] 100, Op.file ["a", "y"] 50, Op.dir ["b"]] ∧
      (applyOps (DirTree.new "root") [Op.file ["a", "x"] 100, Op.file ["a", "y"] 50,
        Op.dir ["b"]]).size
        = totalFileBytes [Op.file ["a", "x"] 100, Op.file ["a", "y"] 50, Op.dir ["b"]]) :=
  ⟨by decide, find?_nil _,
    node_sizes_match_files_below "root" _ [] _ (by decide) (find?_nil _)⟩

theorem add_dir_idempotent_witness :
    1 ≤ 2 ∧
    ((fun u => DirTree.add_dir u ["a", "b"])^[2] (DirTree.new "r")
        = (DirTree.new "r").add_dir ["a", "b"] ∧
      sizeAt ((DirTree.new "r").add_dir ["a", "b"]) ["a"] =
        (if ["a"] = ["a", "b"] ∨ strictlyBelow ["a"] ["a", "b"]
          then some ((sizeAt (DirTree.new "r") ["a"]).getD 0)
          else sizeAt (DirTree.new "r") ["a"])) :=
  ⟨by decide, add_dir_idempotent_and_size_free (DirTree.new "r") ["a", "b"] ["a"] 2 (by decide)⟩

theorem find?_cons_some {cs : List (String × DirTree)} {e : String} {c : DirTree}
    (n : String) (s : Nat) (q : List String) (hl : cs.lookup e = some c) :
    (DirTree.mk n s cs).find? (e :: q) = c.find? q := by
  simp [DirTree.find?, hl]

theorem find?_cons_none {cs : List (String × DirTree)} {e : String}
    (n : String) (s : Nat) (q : List String) (hl : cs.lookup e = none) :
    (DirTree.mk n s cs).find? (e :: q) = none := by
  simp [DirTree.find?, hl]

mutual

/-- Structural invariant: every child is stored in its parent's map under a
key equal to the child's own name field, recursively. -/
def namesOk : DirTree → Bool
  | .mk _ _ cs => namesOkChildren cs

def namesOkChildren : List (String × DirTree) → Bool
  | [] => true
  | (k, c) :: rest => (k == c.name && namesOk c) && namesOkChildren rest

end

@[simp] theorem namesOk_mk (n : String) (s : Nat) (cs : List (String × DirTree)) :
    namesOk (DirTree.mk n s cs) = namesOkChildren cs := by
  rw [namesOk]

theorem namesOkChildren_lookup {cs : List (String × DirTree)}
    (h : namesOkChildren cs = true) {d : String} {c : DirTree}
    (hl : cs.lookup d = some c) : c.name = d ∧ namesOk c = true := by
  induction cs with
  | nil => simp [List.lookup] at hl
  | cons kv rest ih =>
    obtain ⟨k, v⟩ := kv
    rw [namesOkChildren] at h
    simp only [Bool.and_eq_true, beq_iff_eq] at h
    by_cases hk : d = k
    · subst hk
      simp [List.lookup] at hl
      subst hl
      exact ⟨h.1.1.symm, h.1.2⟩
    · have hb : (d == k) = false := by simp [beq_iff_eq, hk]
      simp only [List.lookup, hb] at hl
      exact ih (by simp [h.2]) hl

theorem namesOkChildren_insertChild {cs : List (String × DirTree)}
    (h : namesOkChildren cs = true) {d : String} {c : DirTree}
    (hcn : c.name = d) (hc : namesOk c = true) :
    namesOkChildren (insertChild cs d c) = true := by
  induction cs with
  | nil => simp [insertChild, namesOkChildren, hcn, hc]
  | cons kv rest ih =>
    obtain ⟨k, v⟩ := kv
    rw [namesOkChildren] at h
    simp only [Bool.and_eq_true, beq_iff_eq] at h
    by_cases hk : k = d
    · subst hk
      simp [insertChild, namesOkChildren, hcn, hc, h.2]
    · simp only [insertChild, hk, if_false]
      rw [namesOkChildren]
      simp only [Bool.and_eq_true, beq_iff_eq]
      exact ⟨⟨h.1.1, h.1.2⟩, ih (by simp [h.2])⟩

theorem namesOk_addDirChildren (p : List String) : ∀ (cs : List (String × DirTree)),
    namesOkChildren cs = true → namesOkChildren (addDirChildren cs p) = true := by
  induction p with
  | nil => intro cs h; exact h
  | cons d rest ih =>
    intro cs h
    cases hl : cs.lookup d with
    | some c0 =>
      cases c0 with
      | mk cn csz ccs =>
        obtain ⟨hname, hok⟩ := namesOkChildren_lookup h hl
        rw [DirTree.name] at hname
        rw [namesOk_mk] at hok
        have h1 : addDirChildren cs (d :: rest)
            = insertChild cs d (DirTree.mk cn csz (addDirChildren ccs rest)) := by
          simp only [addDirChildren, hl, Option.getD_some, DirTree.name, DirTree.size,
            DirTree.children]
        rw [h1]
        exact namesOkChildren_insertChild h (by rw [DirTree.name, hname])
          (by rw [namesOk_mk]; exact ih ccs hok)
    | none =>
      have h1 : addDirChildren cs (d :: rest)
          = insertChild cs d (DirTree.mk d 0 (addDirChildren [] rest)) := by
        simp only [addDirChildren, hl, Option.getD_none, DirTree.new, DirTree.name,
          DirTree.size, DirTree.children]
      rw [h1]
      exact namesOkChildren_insertChild h (by rw [DirTree.name])
        (by rw [namesOk_mk]; exact ih [] rfl)

theorem namesOk_addFileChildren (p : List String) (sz : Nat) :
    ∀ (cs : List (String × DirTree)),
    namesOkChildren cs = true → namesOkChildren (addFileChildren cs p sz) = true := by
  induction p with
  | nil => intro cs h; exact h
  | cons d rest ih =>
    intro cs h
    cases rest with
    | nil => exact h
    | cons e rest' =>
      cases hl : cs.lookup d with
      | some c0 =>
        cases c0 with
        | mk cn csz ccs =>
          obtain ⟨hname, hok⟩ := namesOkChildren_lookup h hl
          rw [DirTree.name] at hname
          rw [namesOk_mk] at hok
          have h1 : addFileChildren cs (d :: e :: rest') sz
              = insertChild cs d
                  (DirTree.mk cn (csz + sz) (addFileChildren ccs (e :: rest') sz)) := by
            simp only [addFileChildren, hl, Option.getD_some, DirTree.name, DirTree.size,
              DirTree.children]
          rw [h1]
          exact namesOkChildren_insertChild h (by rw [DirTree.name, hname])
            (by rw [namesOk_mk]; exact ih ccs hok)
      | none =>
        have h1 : addFileChildren cs (d :: e :: rest') sz
            = insertChild cs d (DirTree.mk d (0 + sz) (addFileChildren [] (e :: rest') sz)) := by
          simp only [addFileChildren, hl, Option.getD_none, DirTree.new, DirTree.name,
            DirTree.size, DirTree.children]
        rw [h1]
        exact namesOkChildren_insertChild h (by rw [DirTree.name])
          (by rw [namesOk_mk]; exact ih [] rfl)

theorem find?_name_add_dir (p : List String) : ∀ (t : DirTree) (q : List String)
    (n : DirTree), t.find? q = some n →
    ∃ n', (t.add_dir p).find? q = some n' ∧ n'.name = n.name := by
  induction p with
  | nil =>
    intro t q n hf
    cases t with
    | mk tn s cs => exact ⟨n, hf, rfl⟩
  | cons d rest ih =>
    intro t q n hf
    cases t with
    | mk tn s cs =>
      cases q with
      | nil =>
        rw [find?_nil] at hf
        injection hf with hf
        subst hf
        exact ⟨DirTree.mk tn s (addDirChildren cs (d :: rest)), find?_nil _, rfl⟩
      | cons e q' =>
        by_cases he : e = d
        · subst he
          cases hl : cs.lookup e with
          | some c0 =>
            cases c0 with
            | mk cn csz ccs =>
              rw [find?_cons_some tn s q' hl] at hf
              obtain ⟨n', hn', hname⟩ := ih (DirTree.mk cn csz ccs) q' n hf
              rw [add_dir_mk] at hn'
              exact ⟨n', by
                rw [add_dir_mk, find?_cons_some tn s q' (addDirChildren_lookup_some rest hl)]
                exact hn', hname⟩
          | none =>
            rw [find?_cons_none tn s q' hl] at hf
            exact absurd hf (by simp)
        · cases hl : cs.lookup e with
          | some c =>
            rw [find?_cons_some tn s q' hl] at hf
            exact ⟨n, by
              rw [add_dir_mk, find?_cons_some tn s q' (by
                rw [addDirChildren_lookup_ne _ _ _ _ he]
                exact hl)]
              exact hf, rfl⟩
          | none =>
            rw [find?_cons_none tn s q' hl] at hf
            exact absurd hf (by simp)

theorem find?_name_add_file (p : List String) : ∀ (t : DirTree) (q : List String)
    (sz : Nat) (n : DirTree), t.find? q = some n →
    ∃ n', (t.add_file p sz).find? q = some n' ∧ n'.name = n.name := by
  induction p with
  | nil =>
    intro t q sz n hf
    cases t with
    | mk tn s cs =>
      cases q with
      | nil =>
        rw [find?_nil] at hf
        injection hf with hf
        subst hf
        exact ⟨DirTree.mk tn (s + sz) cs, by
          rw [add_file_mk]
          exact find?_nil _, rfl⟩
      | cons e q' =>
        rw [add_file_mk]
        cases hl : cs.lookup e with
        | some c =>
          rw [find?_cons_some tn s q' hl] at hf
          exact ⟨n, by
            rw [show addFileChildren cs [] sz = cs from rfl, find?_cons_some tn (s + sz) q' hl]
            exact hf, rfl⟩
        | none =>
          rw [find?_cons_none tn s q' hl] at hf
          exact absurd hf (by simp)
  | cons d rest ih =>
    intro t q sz n hf
    cases t with
    | mk tn s cs =>
      cases rest with
      | nil =>
        cases q with
        | nil =>
          rw [find?_nil] at hf
          injection hf with hf
          subst hf
          exact ⟨DirTree.mk tn (s + sz) cs, by
            rw [add_file_mk]
            rw [show addFileChildren cs [d] sz = cs from rfl]
            exact find?_nil _, rfl⟩
        | cons e q' =>
          rw [add_file_mk, show addFileChildren cs [d] sz = cs from rfl]
          cases hl : cs.lookup e with
          | some c =>
            rw [find?_cons_some tn s q' hl] at hf
            exact ⟨n, by
              rw [find?_cons_some tn (s + sz) q' hl]
              exact hf, rfl⟩
          | none =>
            rw [find?_cons_none tn s q' hl] at hf
            exact absurd hf (by simp)
      | cons e rest' =>
        cases q with
        | nil =>
          rw [find?_nil] at hf
          injection hf with hf
          subst hf
          exact ⟨DirTree.mk tn (s + sz) (addFileChildren cs (d :: e :: rest') sz), by
            rw [add_file_mk]
            exact find?_nil _, rfl⟩
        | cons g q' =>
          by_cases hg : g = d
          · subst hg
            cases hl : cs.lookup g with
            | some c0 =>
              cases c0 with
              | mk cn csz ccs =>
                rw [find?_cons_some tn s q' hl] at hf
                obtain ⟨n', hn', hname⟩ := ih (DirTree.mk cn csz ccs) q' sz n hf
                rw [add_file_mk] at hn'
                exact ⟨n', by
                  rw [add_file_mk,
                    find?_cons_some tn (s + sz) q' (addFileChildren_lookup_some e rest' sz hl)]
                  exact hn', hname⟩
            | none =>
              rw [find?_cons_none tn s q' hl] at hf
              exact absurd hf (by simp)
          · cases hl : cs.lookup g with
            | some c =>
              rw [find?_cons_some tn s q' hl] at hf
              exact ⟨n, by
                rw [add_file_mk, find?_cons_some tn (s + sz) q' (by
                  rw [addFileChildren_lookup_ne _ _ _ _ _ _ hg]
                  exact hl)]
                exact hf, rfl⟩
            | none =>
              rw [find?_cons_none tn s q' hl] at hf
              exact absurd hf (by simp)

/-- C10: construction, `add_dir` and `add_file` all preserve the structural
invariant that each child is stored under a key equal to its own name field,
and neither operation changes the name of any existing node. -/
theorem tree_ops_preserve_names (r : String) (t : DirTree) (p q : List String)
    (sz : Nat) (n : DirTree) (hok : namesOk t = true) (hfind : t.find? q = some n) :
    namesOk (DirTree.new r) = true ∧
    namesOk (t.add_dir p) = true ∧
    namesOk (t.add_file p sz) = true ∧
    (∃ n', (t.add_dir p).find? q = some n' ∧ n'.name = n.name) ∧
    (∃ n', (t.add_file p sz).find? q = some n' ∧ n'.name = n.name) := by
  refine ⟨rfl, ?_, ?_, find?_name_add_dir p t q n hfind, find?_name_add_file p t q sz n hfind⟩
  · cases t with
    | mk tn s cs =>
      rw [namesOk_mk] at hok
      rw [add_dir_mk, namesOk_mk]
      exact namesOk_addDirChildren p cs hok
  · cases t with
    | mk tn s cs =>
      rw [namesOk_mk] at hok
      rw [add_file_mk, namesOk_mk]
      exact namesOk_addFileChildren p sz cs hok

theorem tree_ops_preserve_names_witness :
    namesOk (DirTree.new "base") = true ∧
    (DirTree.new "base").find? [] = some (DirTree.new "base") ∧
    (namesOk (DirTree.new "r") = true ∧
      namesOk ((DirTree.new "base").add_dir ["a", "f"]) = true ∧
      namesOk ((DirTree.new "base").add_file ["a", "f"] 7) = true ∧
      (∃ n', ((DirTree.new "base").add_dir ["a", "f"]).find? [] = some n'
        ∧ n'.name = (DirTree.new "base").name) ∧
      (∃ n', ((DirTree.new "base").add_file ["a", "f"] 7).find? [] = some n'
        ∧ n'.name = (DirTree.new "base").name)) :=
  ⟨rfl, find?_nil _,
    tree_ops_preserve_names "r" (DirTree.new "base") ["a", "f"] [] 7 _ rfl (find?_nil _)⟩

/-- The two sort keys accepted by the CLI (`SortBy` in `main.rs`). -/
inductive SortBy where
  | Name
  | Size

/-- `print_top_extensions`, reduced to the order in which the `(extension,
total)` pairs are printed: stable sort descending by size, truncate to
`limit`, then reverse unless `ascending` is set.  In `run`, the `ascending`
argument receives the CLI `reverse` flag (`opts.reverse`). -/
def print_top_extensions (limit : Nat) (ext_sizes : List (String × Nat))
    (ascending : Bool) : List (String × Nat) :=
  let sorted := List.insertionSort (fun a b => b.2 ≤ a.2) ext_sizes
  let truncated := sorted.take limit
  if ascending then truncated else truncated.reverse

/-- `print_space_usage`, reduced to the order in which the immediate children
of the root are printed: a stable sort of `dir_tree.children.values()` by the
chosen key, inverted when the reverse flag is set, with no truncation. -/
def print_space_usage_order (dir_tree : DirTree) (sort_by : SortBy) (reverse : Bool) :
    List DirTree :=
  let directories := dir_tree.children.map Prod.snd
  match sort_by, reverse with
  | SortBy.Name, true => List.insertionSort (fun a b => b.name ≤ a.name) directories
  | SortBy.Name, false => List.insertionSort (fun a b => a.name ≤ b.name) directories
  | SortBy.Size, true => List.insertionSort (fun a b => b.size ≤ a.size) directories
  | SortBy.Size, false => List.insertionSort (fun a b => a.size ≤ b.size) directories

/-- C1 counterexample: the claim says that with the reverse flag set the
selected top-K entries are displayed in ascending size order.  The code does
the opposite: with the flag set (the `ascending` argument, which `run` wires
to `opts.reverse`) the descending sort is kept as is, so for extensions
`[("a", 1), ("b", 2)]` and limit 2 it prints `[("b", 2), ("a", 1)]`, which is
not ascending. -/
theorem top_ext_reverse_flag_not_ascending :
    ¬ ((print_top_extensions 2 [("a", 1), ("b", 2)] true).Pairwise
        fun x y => x.2 ≤ y.2) := by
  decide

/-- C1 (amended): after sorting descending by size and truncating to K
entries, the selected entries are displayed in DESCENDING order (largest
first) when the reverse flag is set, and in ASCENDING order (smallest of the
top-K first) when it is not. -/
theorem top_ext_display_order (limit : Nat) (ext_sizes : List (String × Nat)) :
    ((print_top_extensions limit ext_sizes true).Pairwise fun x y => y.2 ≤ x.2) ∧
    ((print_top_extensions limit ext_sizes false).Pairwise fun x y => x.2 ≤ y.2) := by
  haveI : IsTotal (String × Nat) (fun a b => b.2 ≤ a.2) :=
    ⟨fun a b => (Nat.le_total a.2 b.2).symm⟩
  haveI : IsTrans (String × Nat) (fun a b => b.2 ≤ a.2) :=
    ⟨fun a b c h1 h2 => Nat.le_trans h2 h1⟩
  have hs : (List.insertionSort (fun a b : String × Nat => b.2 ≤ a.2) ext_sizes).Pairwise
      (fun a b => b.2 ≤ a.2) := List.sorted_insertionSort _ _
  have htake : ((List.insertionSort (fun a b : String × Nat => b.2 ≤ a.2) ext_sizes).take
      limit).Pairwise (fun a b => b.2 ≤ a.2) :=
    List.Pairwise.sublist (List.take_sublist _ _) hs
  exact ⟨htake, List.pairwise_reverse.mpr htake⟩

/-- C2: top-K extension selection returns exactly `min K n` entries, those
entries are the K largest by size (everything selected dominates everything
left out, and selected plus leftover is a permutation of the input), and the
reverse flag only permutes the displayed list, never changing which entries
are selected. -/
theorem top_ext_selects_k_largest (limit : Nat) (ext_sizes : List (String × Nat))
    (rev : Bool) :
    (print_top_extensions limit ext_sizes rev).length = min limit ext_sizes.length ∧
    List.Perm (print_top_extensions limit ext_sizes rev)
      (print_top_extensions limit ext_sizes (!rev)) ∧
    ∃ rest, List.Perm (print_top_extensions limit ext_sizes rev ++ rest) ext_sizes ∧
      ∀ a ∈ print_top_extensions limit ext_sizes rev, ∀ b ∈ rest, b.2 ≤ a.2 := by
  haveI : IsTotal (String × Nat) (fun a b => b.2 ≤ a.2) :=
    ⟨fun a b => (Nat.le_total a.2 b.2).symm⟩
  haveI : IsTrans (String × Nat) (fun a b => b.2 ≤ a.2) :=
    ⟨fun a b c h1 h2 => Nat.le_trans h2 h1⟩
  have hps : (List.insertionSort (fun a b : String × Nat => b.2 ≤ a.2) ext_sizes).Pairwise
      (fun a b => b.2 ≤ a.2) := List.sorted_insertionSort _ _
  have hperm : List.Perm (List.insertionSort (fun a b : String × Nat => b.2 ≤ a.2) ext_sizes)
      ext_sizes := List.perm_insertionSort _ _
  have hsplit := List.pairwise_append.mp (by
    rw [List.take_append_drop
      limit (List.insertionSort (fun a b : String × Nat => b.2 ≤ a.2) ext_sizes)]
    exact hps)
  refine ⟨?_, ?_, ?_⟩
  · cases rev with
    | true =>
      simp [print_top_extensions, List.length_take, List.length_insertionSort]
    | false =>
      simp [print_top_extensions, List.length_take, List.length_insertionSort]
  · cases rev with
    | true => exact (List.reverse_perm _).symm
    | false => exact List.reverse_perm _
  · refine ⟨(List.insertionSort (fun a b : String × Nat => b.2 ≤ a.2) ext_sizes).drop limit,
      ?_, ?_⟩
    · cases rev with
      | true =>
        have : print_top_extensions limit ext_sizes true ++
            (List.insertionSort (fun a b : String × Nat => b.2 ≤ a.2) ext_sizes).drop limit
            = List.insertionSort (fun a b : String × Nat => b.2 ≤ a.2) ext_sizes :=
          List.take_append_drop _ _
        rw [this]
        exact hperm
      | false =>
        have h1 : List.Perm (print_top_extensions limit ext_sizes false ++
            (List.insertionSort (fun a b : String × Nat => b.2 ≤ a.2) ext_sizes).drop limit)
            ((List.insertionSort (fun a b : String × Nat => b.2 ≤ a.2) ext_sizes).take limit ++
            (List.insertionSort (fun a b : String × Nat => b.2 ≤ a.2) ext_sizes).drop limit) :=
          (List.reverse_perm _).append_right _
        rw [List.take_append_drop] at h1
        exact h1.trans hperm
    · cases rev with
      | true => exact fun a ha b hb => hsplit.2.2 a ha b hb
      | false => exact fun a ha b hb => hsplit.2.2 a (List.mem_reverse.mp ha) b hb

/-- C5 counterexample: with two zero-size children the stable ascending and
descending sorts both return the children in map order, so the two listings
are NOT exact reverses of each other (ties break the claim). -/
theorem dir_sort_reverse_counterexample :
    ¬ (print_space_usage_order
          (DirTree.mk "r" 0 [("a", DirTree.mk "a" 0 []), ("b", DirTree.mk "b" 0 [])])
          SortBy.Size false
        = (print_space_usage_order
          (DirTree.mk "r" 0 [("a", DirTree.mk "a" 0 []), ("b", DirTree.mk "b" 0 [])])
          SortBy.Size true).reverse) := by
  intro h
  exact absurd (congrArg (List.map DirTree.name) h) (by decide)

/-- C5 (amended): sorting the directory listing by size ascending and by size
descending always produces permutations of the same element set, and the two
sequences are exact reverses of each other whenever the children's sizes are
pairwise distinct (with tied sizes the stable sort leaves tied elements in
map order in both directions, so the sequences need not be reversed). -/
theorem dir_sort_asc_desc_reversed (t : DirTree) (h : t.children ≠ []) :
    List.Perm (print_space_usage_order t SortBy.Size false)
      (print_space_usage_order t SortBy.Size true) ∧
    (((t.children.map Prod.snd).map DirTree.size).Nodup →
      print_space_usage_order t SortBy.Size false
        = (print_space_usage_order t SortBy.Size true).reverse) := by
  haveI : IsTotal DirTree (fun a b : DirTree => a.size ≤ b.size) :=
    ⟨fun a b => Nat.le_total a.size b.size⟩
  haveI : IsTrans DirTree (fun a b : DirTree => a.size ≤ b.size) :=
    ⟨fun a b c h1 h2 => Nat.le_trans h1 h2⟩
  haveI : IsTotal DirTree (fun a b : DirTree => b.size ≤ a.size) :=
    ⟨fun a b => (Nat.le_total a.size b.size).symm⟩
  haveI : IsTrans DirTree (fun a b : DirTree => b.size ≤ a.size) :=
    ⟨fun a b c h1 h2 => Nat.le_trans h2 h1⟩
  haveI : IsAntisymm DirTree (fun a b : DirTree => a.size < b.size) :=
    ⟨fun a b h1 h2 => absurd h2 (Nat.lt_asymm h1)⟩
  have hA : print_space_usage_order t SortBy.Size false
      = List.insertionSort (fun a b : DirTree => a.size ≤ b.size)
          (t.children.map Prod.snd) := rfl
  have hD : print_space_usage_order t SortBy.Size true
      = List.insertionSort (fun a b : DirTree => b.size ≤ a.size)
          (t.children.map Prod.snd) := rfl
  have hpermA : List.Perm
      (List.insertionSort (fun a b : DirTree => a.size ≤ b.size) (t.children.map Prod.snd))
      (t.children.map Prod.snd) := List.perm_insertionSort _ _
  have hpermD : List.Perm
      (List.insertionSort (fun a b : DirTree => b.size ≤ a.size) (t.children.map Prod.snd))
      (t.children.map Prod.snd) := List.perm_insertionSort _ _
  have hpermR : List.Perm
      ((List.insertionSort (fun a b : DirTree => b.size ≤ a.size)
        (t.children.map Prod.snd)).reverse)
      (t.children.map Prod.snd) := (List.reverse_perm _).trans hpermD
  constructor
  · rw [hA, hD]
    exact hpermA.trans hpermD.symm
  · intro hd
    have hltA : (List.insertionSort (fun a b : DirTree => a.size ≤ b.size)
        (t.children.map Prod.snd)).Pairwise (fun a b : DirTree => a.size < b.size) := by
      have h1 : (List.insertionSort (fun a b : DirTree => a.size ≤ b.size)
          (t.children.map Prod.snd)).Pairwise (fun a b : DirTree => a.size ≤ b.size) :=
        List.sorted_insertionSort _ _
      have hnod : ((List.insertionSort (fun a b : DirTree => a.size ≤ b.size)
          (t.children.map Prod.snd)).map DirTree.size).Nodup :=
        ((hpermA.map DirTree.size).nodup_iff).mpr hd
      have h2 : (List.insertionSort (fun a b : DirTree => a.size ≤ b.size)
          (t.children.map Prod.snd)).Pairwise (fun a b : DirTree => a.size ≠ b.size) :=
        List.pairwise_map.mp hnod
      exact (h1.and h2).imp (fun hab => Nat.lt_of_le_of_ne hab.1 hab.2)
    have hltR : ((List.insertionSort (fun a b : DirTree => b.size ≤ a.size)
        (t.children.map Prod.snd)).reverse).Pairwise
          (fun a b : DirTree => a.size < b.size) := by
      have h1 : (List.insertionSort (fun a b : DirTree => b.size ≤ a.size)
          (t.children.map Prod.snd)).Pairwise (fun a b : DirTree => b.size ≤ a.size) :=
        List.sorted_insertionSort _ _
      have h1' : ((List.insertionSort (fun a b : DirTree => b.size ≤ a.size)
          (t.children.map Prod.snd)).reverse).Pairwise
            (fun a b : DirTree => a.size ≤ b.size) :=
        List.pairwise_reverse.mpr h1
      have hnod : (((List.insertionSort (fun a b : DirTree => b.size ≤ a.size)
          (t.children.map Prod.snd)).reverse).map DirTree.size).Nodup :=
        ((hpermR.map DirTree.size).nodup_iff).mpr hd
      have h2 : ((List.insertionSort (fun a b : DirTree => b.size ≤ a.size)
          (t.children.map Prod.snd)).reverse).Pairwise
            (fun a b : DirTree => a.size ≠ b.size) :=
        List.pairwise_map.mp hnod
      exact (h1'.and h2).imp (fun hab => Nat.lt_of_le_of_ne hab.1 hab.2)
    rw [hA, hD]
    exact List.eq_of_perm_of_sorted (hpermA.trans hpermR.symm) hltA hltR

theorem dir_sort_asc_desc_reversed_witness :
    (DirTree.mk "r" 0 [("a", DirTree.mk "a" 1 []), ("b", DirTree.mk "b" 2 [])]).children
        ≠ [] ∧
    ((((DirTree.mk "r" 0 [("a", DirTree.mk "a" 1 []),
        ("b", DirTree.mk "b" 2 [])]).children.map Prod.snd).map DirTree.size).Nodup) ∧
    (List.Perm
      (print_space_usage_order (DirTree.mk "r" 0 [("a", DirTree.mk "a" 1 []),
        ("b", DirTree.mk "b" 2 [])]) SortBy.Size false)
      (print_space_usage_order (DirTree.mk "r" 0 [("a", DirTree.mk "a" 1 []),
        ("b", DirTree.mk "b" 2 [])]) SortBy.Size true) ∧
    print_space_usage_order (DirTree.mk "r" 0 [("a", DirTree.mk "a" 1 []),
        ("b", DirTree.mk "b" 2 [])]) SortBy.Size false
      = (print_space_usage_order (DirTree.mk "r" 0 [("a", DirTree.mk "a" 1 []),
        ("b", DirTree.mk "b" 2 [])]) SortBy.Size true).reverse) :=
  ⟨List.cons_ne_nil _ _, by decide,
    (dir_sort_asc_desc_reversed (DirTree.mk "r" 0 [("a", DirTree.mk "a" 1 []),
      ("b", DirTree.mk "b" 2 [])]) (List.cons_ne_nil _ _)).1,
    (dir_sort_asc_desc_reversed (DirTree.mk "r" 0 [("a", DirTree.mk "a" 1 []),
      ("b", DirTree.mk "b" 2 [])]) (List.cons_ne_nil _ _)).2 (by decide)⟩

/-- Characters after the last `'.'` in a character list, if any dot occurs. -/
def afterLastDot : List Char → Option (List Char)
  | [] => none
  | c :: rest =>
      match afterLastDot rest with
      | some e => some e
      | none => if c = '.' then some rest else none

/-- `Path::extension` restricted to a file's base name: the part after the
final dot, provided some dot occurs at position ≥ 1 — so a name with no dot,
or a leading-dot name with no further dot (`.gitignore`), has no extension. -/
def extOfName (s : String) : Option String :=
  match s.toList with
  | [] => none
  | _ :: rest => (afterLastDot rest).map fun cs => String.mk cs

/-- `path.extension()` on a relative path: the extension of its final
segment; `none` for the empty path. -/
def pathExtension (p : List String) : Option String :=
  match p.getLast? with
  | none => none
  | some f => extOfName f

/-- A successfully read walk entry: its root-relative path and, for files,
the byte size from its metadata. -/
inductive WalkEntry where
  | dirEntry (path : List String)
  | fileEntry (path : List String) (size : Nat)

/-- `ext_sizes.entry(ext).or_insert(0); *total += size` on the association
list model of the extension map. -/
def bumpExt : List (String × Nat) → String → Nat → List (String × Nat)
  | [], e, sz => [(e, 0 + sz)]
  | (k, v) :: rest, e, sz =>
      if k = e then (k, v + sz) :: rest else (k, v) :: bumpExt rest e sz

/-- The body of the walk loop in `run` for one successfully read entry:
directories call `add_dir`; files call `add_file` and, when the path has an
extension, accumulate the size under that extension. -/
def processEntry (st : DirTree × List (String × Nat)) :
    WalkEntry → DirTree × List (String × Nat)
  | .dirEntry p => (st.1.add_dir p, st.2)
  | .fileEntry p sz =>
      (st.1.add_file p sz,
        match pathExtension p with
        | some e => bumpExt st.2 e sz
        | none => st.2)

/-- The walk loop in `run` over the whole entry stream: `Err` entries are
reported to the error channel and skipped, `Ok` entries update the state.
Returns the final state and the reported error messages. -/
def runWalk (st : DirTree × List (String × Nat)) :
    List (Except String WalkEntry) → (DirTree × List (String × Nat)) × List String
  | [] => (st, [])
  | Except.error msg :: rest =>
      let r := runWalk st rest
      (r.1, msg :: r.2)
  | Except.ok entry :: rest => runWalk (processEntry st entry) rest

def okOf : Except String WalkEntry → Option WalkEntry
  | .ok e => some e
  | .error _ => none

def errOf : Except String WalkEntry → Option String
  | .ok _ => none
  | .error m => some m

/-- C6: the walk-consuming loop never aborts on an erroring entry: the final
tree and extension aggregator are exactly those computed from the subsequence
of readable (`Ok`) entries alone, and every erroring entry is reported on the
error channel.  The loop is a total function, so the run always completes and
reaches the report-printing stage. -/
theorem walk_errors_reported_and_skipped (st : DirTree × List (String × Nat))
    (items : List (Except String WalkEntry)) :
    (runWalk st items).1 = (items.filterMap okOf).foldl processEntry st ∧
    (runWalk st items).2 = items.filterMap errOf := by
  induction items generalizing st with
  | nil => exact ⟨rfl, rfl⟩
  | cons it rest ih =>
    cases it with
    | error msg =>
      refine ⟨?_, ?_⟩
      · simp [runWalk, okOf, errOf, List.filterMap_cons, (ih st).1]
      · simp [runWalk, okOf, errOf, List.filterMap_cons, (ih st).2]
    | ok e =>
      refine ⟨?_, ?_⟩
      · simp [runWalk, okOf, errOf, List.filterMap_cons, (ih (processEntry st e)).1]
      · simp [runWalk, okOf, errOf, List.filterMap_cons, (ih (processEntry st e)).2]

/-- The `(path, size)` pairs of the readable file entries of the stream. -/
def okFiles (items : List (Except String WalkEntry)) : List (List String × Nat) :=
  items.filterMap fun it =>
    match it with
    | .ok (.fileEntry p sz) => some (p, sz)
    | _ => none

/-- Sum of all totals recorded in the extension map. -/
def extTotal (m : List (String × Nat)) : Nat := (m.map Prod.snd).sum

theorem extTotal_bumpExt (m : List (String × Nat)) (e : String) (sz : Nat) :
    extTotal (bumpExt m e sz) = extTotal m + sz := by
  induction m with
  | nil => simp [bumpExt, extTotal]
  | cons kv rest ih =>
    obtain ⟨k, v⟩ := kv
    by_cases h : k = e
    · subst h
      simp [bumpExt, extTotal]
      omega
    · simp [bumpExt, h, extTotal] at ih ⊢
      omega

theorem size_add_dir (t : DirTree) (p : List String) : (t.add_dir p).size = t.size := by
  cases t with
  | mk n s cs => rfl

theorem size_add_file (t : DirTree) (p : List String) (sz : Nat) :
    (t.add_file p sz).size = t.size + sz := by
  cases t with
  | mk n s cs => rfl

theorem runWalk_totals (items : List (Except String WalkEntry)) :
    ∀ (st : DirTree × List (String × Nat)),
    ((runWalk st items).1.1).size = st.1.size + ((okFiles items).map Prod.snd).sum ∧
    extTotal ((runWalk st items).1.2) = extTotal st.2 +
      (((okFiles items).filter fun f => (pathExtension f.1).isSome).map Prod.snd).sum := by
  induction items with
  | nil => intro st; simp [runWalk, okFiles]
  | cons it rest ih =>
    intro st
    cases it with
    | error msg =>
      have h := ih st
      refine ⟨?_, ?_⟩
      · simpa [runWalk, okFiles, List.filterMap_cons] using h.1
      · simpa [runWalk, okFiles, List.filterMap_cons] using h.2
    | ok e =>
      cases e with
      | dirEntry p =>
        have h := ih (processEntry st (WalkEntry.dirEntry p))
        refine ⟨?_, ?_⟩
        · have := h.1
          simp only [runWalk, okFiles, List.filterMap_cons] at this ⊢
          rw [this]
          simp only [processEntry, size_add_dir]
        · have := h.2
          simp only [runWalk, okFiles, List.filterMap_cons] at this ⊢
          rw [this]
          simp only [processEntry]
      | fileEntry p sz =>
        have h := ih (processEntry st (WalkEntry.fileEntry p sz))
        refine ⟨?_, ?_⟩
        · have := h.1
          simp only [runWalk, okFiles, List.filterMap_cons] at this ⊢
          rw [this]
          simp only [processEntry, size_add_file, List.map_cons, List.sum_cons]
          omega
        · have := h.2
          simp only [runWalk, okFiles, List.filterMap_cons] at this ⊢
          rw [this]
          cases hext : pathExtension p with
          | some ext =>
            simp only [processEntry, hext, extTotal_bumpExt, List.filter_cons,
              Option.isSome_some, if_pos, List.map_cons, List.sum_cons]
            omega
          | none =>
            simp only [processEntry, hext, List.filter_cons, Option.isSome_none]
            simp

theorem sum_filter_le (l : List (List String × Nat)) (c : List String × Nat → Bool) :
    ((l.filter c).map Prod.snd).sum ≤ (l.map Prod.snd).sum := by
  induction l with
  | nil => simp
  | cons x rest ih =>
    cases hc : c x with
    | true => simp [List.filter_cons, hc]; omega
    | false => simp [List.filter_cons, hc]; omega

theorem sum_filter_lt (l : List (List String × Nat)) (c : List String × Nat → Bool)
    (x : List String × Nat) (hx : x ∈ l) (hcx : c x = false) (hpos : 0 < x.2) :
    ((l.filter c).map Prod.snd).sum < (l.map Prod.snd).sum := by
  induction l with
  | nil => simp at hx
  | cons y rest ih =>
    rcases List.mem_cons.mp hx with hy | hy
    · subst hy
      have hle := sum_filter_le rest c
      simp [List.filter_cons, hcx]
      omega
    · cases hc : c y with
      | true =>
        have := ih hy
        simp [List.filter_cons, hc]
        omega
      | false =>
        have := ih hy
        simp [List.filter_cons, hc]
        omega

/-- C8: a file whose base name has no dot-delimited suffix contributes
nothing to the extension map while still being counted in the tree: the sum
of all extension totals equals the total size of files that do have an
extension, the root's size is the total size of all readable files, so the
extension sum never exceeds the root total and is strictly below it as soon
as one extensionless file of nonzero size was processed. -/
theorem extensionless_files_excluded (r : String)
    (items : List (Except String WalkEntry)) :
    extTotal ((runWalk (DirTree.new r, []) items).1.2)
      = (((okFiles items).filter fun f => (pathExtension f.1).isSome).map Prod.snd).sum ∧
    ((runWalk (DirTree.new r, []) items).1.1).size = ((okFiles items).map Prod.snd).sum ∧
    extTotal ((runWalk (DirTree.new r, []) items).1.2)
      ≤ ((runWalk (DirTree.new r, []) items).1.1).size ∧
    ((∃ f, f ∈ okFiles items ∧ pathExtension f.1 = none ∧ 0 < f.2) →
      extTotal ((runWalk (DirTree.new r, []) items).1.2)
        < ((runWalk (DirTree.new r, []) items).1.1).size) := by
  have h := runWalk_totals items (DirTree.new r, [])
  have h1 : extTotal ((runWalk (DirTree.new r, []) items).1.2)
      = (((okFiles items).filter fun f => (pathExtension f.1).isSome).map Prod.snd).sum := by
    have := h.2
    simp only [extTotal, List.map_nil, List.sum_nil, Nat.zero_add] at this
    simpa [extTotal] using this
  have h2 : ((runWalk (DirTree.new r, []) items).1.1).size
      = ((okFiles items).map Prod.snd).sum := by
    have := h.1
    simpa [DirTree.new, DirTree.size] using this
  refine ⟨h1, h2, ?_, ?_⟩
  · rw [h1, h2]
    exact sum_filter_le _ _
  · rintro ⟨f, hf, hnone, hpos⟩
    rw [h1, h2]
    exact sum_filter_lt _ _ f hf (by simp [hnone]) hpos

theorem extensionless_files_excluded_witness :
    (extTotal ((runWalk (DirTree.new "r", [])
        [Except.ok (WalkEntry.fileEntry ["a", "x.txt"] 3),
          Except.ok (WalkEntry.fileEntry ["noext"] 5), Except.error "boom"]).1.2)
      = (((okFiles [Except.ok (WalkEntry.fileEntry ["a", "x.txt"] 3),
          Except.ok (WalkEntry.fileEntry ["noext"] 5),
          Except.error "boom"]).filter fun f => (pathExtension f.1).isSome).map
            Prod.snd).sum) ∧
    ((runWalk (DirTree.new "r", [])
        [Except.ok (WalkEntry.fileEntry ["a", "x.txt"] 3),
          Except.ok (WalkEntry.fileEntry ["noext"] 5), Except.error "boom"]).1.1).size
      = ((okFiles [Except.ok (WalkEntry.fileEntry ["a", "x.txt"] 3),
          Except.ok (WalkEntry.fileEntry ["noext"] 5),
          Except.error "boom"]).map Prod.snd).sum ∧
    extTotal ((runWalk (DirTree.new "r", [])
        [Except.ok (WalkEntry.fileEntry ["a", "x.txt"] 3),
          Except.ok (WalkEntry.fileEntry ["noext"] 5), Except.error "boom"]).1.2)
      < ((runWalk (DirTree.new "r", [])
        [Except.ok (WalkEntry.fileEntry ["a", "x.txt"] 3),
          Except.ok (WalkEntry.fileEntry ["noext"] 5), Except.error "boom"]).1.1).size := by
  have h := extensionless_files_excluded "r"
    [Except.ok (WalkEntry.fileEntry ["a", "x.txt"] 3),
      Except.ok (WalkEntry.fileEntry ["noext"] 5), Except.error "boom"]
  exact ⟨h.1, h.2.1, h.2.2.2 ⟨(["noext"], 5), by decide, by decide, by decide⟩⟩
